import Mathlib

/-!
Verification development for the noslock encrypted-pastebin core.

The TypeScript sources are embedded shallowly:
* bytes are `Nat` values (with explicit `< 256` bounds where relevant),
  byte arrays (`Uint8Array`) are `List Nat`, JS strings are Lean `String`
  (lists of unicode scalar values);
* the libsodium primitives used by the code
  (`crypto_aead_xchacha20poly1305_ietf_encrypt` / `_decrypt`,
  `to_hex` / `from_hex`, `from_string` / `to_string`) are modelled by
  executable Lean implementations of XChaCha20-Poly1305 (RFC 8439 plus the
  HChaCha20 nonce extension), hex codecs and UTF-8 codecs;
* the browser's `btoa` / `atob` are modelled by an executable base64
  encoder and the WHATWG forgiving-base64 decoder;
* randomness (`randombytes_buf`) is passed in explicitly as arguments, and
  network relay access is passed in as a lookup function, so that every
  embedded operation is a pure function.
-/

namespace Noslock

/-! ## 32-bit words as naturals -/

/-- Truncate to a 32-bit word. -/
def w32 (x : Nat) : Nat := x % 4294967296

/-- Rotate a 32-bit word left by `n` bits (`x` is assumed `< 2^32`). -/
def rotl32 (x n : Nat) : Nat := w32 (x <<< n) ||| (x >>> (32 - n))

/-- Load a little-endian 32-bit word from four bytes. -/
def load32 (a b c d : Nat) : Nat := a + 256 * b + 65536 * c + 16777216 * d

/-- Serialize a 32-bit word to four little-endian bytes. -/
def le32 (x : Nat) : List Nat := [x % 256, x / 256 % 256, x / 65536 % 256, x / 16777216 % 256]

/-- Little-endian word at byte offset `i` of a byte list (missing bytes read as 0,
matching out-of-range reads never exercised on well-formed inputs). -/
def leWordAt (l : List Nat) (i : Nat) : Nat :=
  load32 (l.getD i 0) (l.getD (i + 1) 0) (l.getD (i + 2) 0) (l.getD (i + 3) 0)

/-- Interpret a whole byte list as a little-endian natural number. -/
def leNum : List Nat → Nat
  | [] => 0
  | b :: r => b + 256 * leNum r

/-- Serialize a natural number to `len` little-endian bytes (truncating). -/
def toLE (len x : Nat) : List Nat :=
  match len with
  | 0 => []
  | m + 1 => x % 256 :: toLE m (x / 256)

/-! ## ChaCha20 core (RFC 8439), as used by libsodium -/

/-- The 16-word ChaCha20 state. -/
structure CCState where
  y0 : Nat
  y1 : Nat
  y2 : Nat
  y3 : Nat
  y4 : Nat
  y5 : Nat
  y6 : Nat
  y7 : Nat
  y8 : Nat
  y9 : Nat
  y10 : Nat
  y11 : Nat
  y12 : Nat
  y13 : Nat
  y14 : Nat
  y15 : Nat

/-- The ChaCha20 quarter round. -/
def quarterRound (a b c d : Nat) : Nat × Nat × Nat × Nat :=
  let a := w32 (a + b); let d := rotl32 (d ^^^ a) 16
  let c := w32 (c + d); let b := rotl32 (b ^^^ c) 12
  let a := w32 (a + b); let d := rotl32 (d ^^^ a) 8
  let c := w32 (c + d); let b := rotl32 (b ^^^ c) 7
  (a, b, c, d)

/-- One ChaCha20 double round (column round then diagonal round). -/
def doubleRound (s : CCState) : CCState :=
  let (a0, a4, a8, a12) := quarterRound s.y0 s.y4 s.y8 s.y12
  let (a1, a5, a9, a13) := quarterRound s.y1 s.y5 s.y9 s.y13
  let (a2, a6, a10, a14) := quarterRound s.y2 s.y6 s.y10 s.y14
  let (a3, a7, a11, a15) := quarterRound s.y3 s.y7 s.y11 s.y15
  let (b0, b5, b10, b15) := quarterRound a0 a5 a10 a15
  let (b1, b6, b11, b12) := quarterRound a1 a6 a11 a12
  let (b2, b7, b8, b13) := quarterRound a2 a7 a8 a13
  let (b3, b4, b9, b14) := quarterRound a3 a4 a9 a14
  ⟨b0, b1, b2, b3, b4, b5, b6, b7, b8, b9, b10, b11, b12, b13, b14, b15⟩

/-- Iterate the double round. -/
def doubleRounds : Nat → CCState → CCState
  | 0, s => s
  | n + 1, s => doubleRounds n (doubleRound s)

/-- ChaCha20 initial state: constants, 32-byte key, and four free tail words. -/
def ccInit (key : List Nat) (w12 w13 w14 w15 : Nat) : CCState :=
  ⟨1634760805, 857760878, 2036477234, 1797285236,
   leWordAt key 0, leWordAt key 4, leWordAt key 8, leWordAt key 12,
   leWordAt key 16, leWordAt key 20, leWordAt key 24, leWordAt key 28,
   w12, w13, w14, w15⟩

/-- Word-wise 32-bit addition of two states. -/
def ccAdd (s t : CCState) : CCState :=
  ⟨w32 (s.y0 + t.y0), w32 (s.y1 + t.y1), w32 (s.y2 + t.y2), w32 (s.y3 + t.y3),
   w32 (s.y4 + t.y4), w32 (s.y5 + t.y5), w32 (s.y6 + t.y6), w32 (s.y7 + t.y7),
   w32 (s.y8 + t.y8), w32 (s.y9 + t.y9), w32 (s.y10 + t.y10), w32 (s.y11 + t.y11),
   w32 (s.y12 + t.y12), w32 (s.y13 + t.y13), w32 (s.y14 + t.y14), w32 (s.y15 + t.y15)⟩

/-- Serialize a state to 64 little-endian bytes. -/
def ccSerialize (s : CCState) : List Nat :=
  le32 s.y0 ++ le32 s.y1 ++ le32 s.y2 ++ le32 s.y3 ++ le32 s.y4 ++ le32 s.y5 ++
  le32 s.y6 ++ le32 s.y7 ++ le32 s.y8 ++ le32 s.y9 ++ le32 s.y10 ++ le32 s.y11 ++
  le32 s.y12 ++ le32 s.y13 ++ le32 s.y14 ++ le32 s.y15

/-- The ChaCha20 block function (IETF flavour: 32-bit counter, 12-byte nonce). -/
def chachaBlock (key nonce : List Nat) (counter : Nat) : List Nat :=
  let st := ccInit key (w32 counter) (leWordAt nonce 0) (leWordAt nonce 4) (leWordAt nonce 8)
  ccSerialize (ccAdd (doubleRounds 10 st) st)

/-- HChaCha20: derive a 32-byte subkey from a 32-byte key and a 16-byte nonce. -/
def hchacha20 (key n16 : List Nat) : List Nat :=
  let st := ccInit key (leWordAt n16 0) (leWordAt n16 4) (leWordAt n16 8) (leWordAt n16 12)
  let f := doubleRounds 10 st
  le32 f.y0 ++ le32 f.y1 ++ le32 f.y2 ++ le32 f.y3 ++
  le32 f.y12 ++ le32 f.y13 ++ le32 f.y14 ++ le32 f.y15

/-- Concatenation of `cnt` consecutive ChaCha20 blocks starting at `counter`. -/
def chachaBlocks (key nonce : List Nat) (counter cnt : Nat) : List Nat :=
  match cnt with
  | 0 => []
  | m + 1 => chachaBlock key nonce counter ++ chachaBlocks key nonce (counter + 1) m

/-- The ChaCha20 keystream of `len` bytes starting at block `counter`. -/
def chachaStream (key nonce : List Nat) (counter len : Nat) : List Nat :=
  (chachaBlocks key nonce counter ((len + 63) / 64)).take len

/-! ## Poly1305 (RFC 8439) -/

/-- Poly1305 accumulator loop over 16-byte chunks: each full chunk is read
as a little-endian number, topped with a `2^128` bit, added to the
accumulator and multiplied by `r` modulo `2^130 - 5`; a final short chunk
is topped with `2^(8·len)` instead. -/
def polyLoop (r acc : Nat) : List Nat → Nat
  | [] => acc
  | b0 :: b1 :: b2 :: b3 :: b4 :: b5 :: b6 :: b7 ::
      b8 :: b9 :: b10 :: b11 :: b12 :: b13 :: b14 :: b15 :: rest =>
    polyLoop r
      (((acc + leNum [b0, b1, b2, b3, b4, b5, b6, b7, b8, b9, b10, b11, b12, b13, b14, b15] +
        2 ^ 128) * r) % (2 ^ 130 - 5)) rest
  | chunk => ((acc + leNum chunk + 2 ^ (8 * chunk.length)) * r) % (2 ^ 130 - 5)

/-- Poly1305 one-time authenticator: 32-byte key, arbitrary message, 16-byte
tag.  The clamping of `r` (the RFC 8439 mask `0x0ffffffc...0fffffff`) is
applied byte-wise: bytes 3, 7, 11, 15 are masked with 15 (`b &&& 15 = b % 16`)
and bytes 4, 8, 12 with 252 (`b &&& 252 = b % 256 - b % 4`). -/
def poly1305 (key msg : List Nat) : List Nat :=
  let kr := key.take 16
  let r := leNum [kr.getD 0 0, kr.getD 1 0, kr.getD 2 0, kr.getD 3 0 % 16,
    kr.getD 4 0 % 256 - kr.getD 4 0 % 4, kr.getD 5 0, kr.getD 6 0, kr.getD 7 0 % 16,
    kr.getD 8 0 % 256 - kr.getD 8 0 % 4, kr.getD 9 0, kr.getD 10 0, kr.getD 11 0 % 16,
    kr.getD 12 0 % 256 - kr.getD 12 0 % 4, kr.getD 13 0, kr.getD 14 0, kr.getD 15 0 % 16]
  let s := leNum (key.drop 16)
  toLE 16 (polyLoop r 0 msg + s)

/-! ## XChaCha20-Poly1305 AEAD (libsodium `crypto_aead_xchacha20poly1305_ietf`) -/

/-- Zero padding to the next 16-byte boundary, as used in the Poly1305 MAC data. -/
def pad16len (n : Nat) : Nat := (16 - n % 16) % 16

/-- Byte-wise XOR of a message with a keystream. -/
def xorBytes (m s : List Nat) : List Nat := List.zipWith (fun a b => a ^^^ b) m s

/-- The Poly1305 MAC data for empty AAD: ciphertext, zero padding, and the two
little-endian 64-bit lengths (AAD length 0, then ciphertext length). -/
def macData (ct : List Nat) : List Nat :=
  ct ++ List.replicate (pad16len ct.length) 0 ++ toLE 8 0 ++ toLE 8 ct.length

/-- The failure modes of the libsodium AEAD decrypt wrapper: it rejects a
ciphertext shorter than the 16-byte tag before any decryption work, and
otherwise fails only when the Poly1305 tag does not verify. -/
inductive SodiumDecryptFailure where
  | shortCiphertext : SodiumDecryptFailure
  | badMac : SodiumDecryptFailure
deriving DecidableEq, Repr

/-- `crypto_aead_xchacha20poly1305_ietf_encrypt` with empty AAD:
derive a subkey with HChaCha20 from the first 16 nonce bytes, encrypt with
ChaCha20 (IETF nonce = 4 zero bytes plus the last 8 nonce bytes, counter 1),
and append the Poly1305 tag computed under the block-0 key. -/
def xchachaEncrypt (m key nonce : List Nat) : List Nat :=
  let sub := hchacha20 key (nonce.take 16)
  let iv := [0, 0, 0, 0] ++ nonce.drop 16
  let polyKey := (chachaBlock sub iv 0).take 32
  let ct := xorBytes m (chachaStream sub iv 1 m.length)
  ct ++ poly1305 polyKey (macData ct)

/-- `crypto_aead_xchacha20poly1305_ietf_decrypt` with empty AAD:
reject inputs shorter than the tag, recompute the Poly1305 tag over the
ciphertext body, and decrypt only if the tag matches. -/
def xchachaDecrypt (c key nonce : List Nat) : Except SodiumDecryptFailure (List Nat) :=
  if c.length < 16 then .error .shortCiphertext
  else
    let ct := c.take (c.length - 16)
    let tag := c.drop (c.length - 16)
    let sub := hchacha20 key (nonce.take 16)
    let iv := [0, 0, 0, 0] ++ nonce.drop 16
    let polyKey := (chachaBlock sub iv 0).take 32
    if tag = poly1305 polyKey (macData ct) then
      .ok (xorBytes ct (chachaStream sub iv 1 ct.length))
    else .error .badMac

/-! ### Shape lemmas for the AEAD model -/

theorem le32_length (x : Nat) : (le32 x).length = 4 := rfl

theorem toLE_length (len x : Nat) : (toLE len x).length = len := by
  induction len generalizing x with
  | zero => rfl
  | succ m ih => simp [toLE, ih]

theorem ccSerialize_length (s : CCState) : (ccSerialize s).length = 64 := by
  simp [ccSerialize, le32]

theorem chachaBlock_length (key nonce : List Nat) (counter : Nat) :
    (chachaBlock key nonce counter).length = 64 := by
  simp [chachaBlock, ccSerialize_length]

theorem chachaBlocks_length (key nonce : List Nat) (counter cnt : Nat) :
    (chachaBlocks key nonce counter cnt).length = 64 * cnt := by
  induction cnt generalizing counter with
  | zero => rfl
  | succ m ih => simp [chachaBlocks, chachaBlock_length, ih]; omega

theorem chachaStream_length (key nonce : List Nat) (counter len : Nat) :
    (chachaStream key nonce counter len).length = len := by
  simp only [chachaStream, List.length_take, chachaBlocks_length]
  omega

theorem poly1305_length (key msg : List Nat) : (poly1305 key msg).length = 16 := by
  simp [poly1305, toLE_length]

theorem xorBytes_length (m s : List Nat) (h : s.length = m.length) :
    (xorBytes m s).length = m.length := by
  simp [xorBytes, h]

theorem xchachaEncrypt_length (m key nonce : List Nat) :
    (xchachaEncrypt m key nonce).length = m.length + 16 := by
  simp [xchachaEncrypt, poly1305_length, xorBytes_length, chachaStream_length]

theorem xorBytes_cancel (m s : List Nat) (h : s.length = m.length) :
    xorBytes (xorBytes m s) s = m := by
  induction m generalizing s with
  | nil => simp [xorBytes]
  | cons a m ih =>
    cases s with
    | nil => simp at h
    | cons b s =>
      simp only [List.length_cons, Nat.succ_inj] at h
      show ((a ^^^ b) ^^^ b) :: xorBytes (xorBytes m s) s = a :: m
      rw [Nat.xor_cancel_right, ih s h]

/-- Decrypting an encryption under the same key and nonce recovers the message. -/
theorem xchachaDecrypt_encrypt (m key nonce : List Nat) :
    xchachaDecrypt (xchachaEncrypt m key nonce) key nonce = .ok m := by
  have hctlen : (xorBytes m
      (chachaStream (hchacha20 key (nonce.take 16)) ([0, 0, 0, 0] ++ nonce.drop 16) 1
        m.length)).length = m.length :=
    xorBytes_length _ _ (chachaStream_length _ _ _ _)
  have hlen : (xchachaEncrypt m key nonce).length = m.length + 16 :=
    xchachaEncrypt_length m key nonce
  unfold xchachaEncrypt at hlen ⊢
  unfold xchachaDecrypt
  rw [if_neg (by omega)]
  simp only [hlen]
  have hsub : m.length + 16 - 16 = (xorBytes m
      (chachaStream (hchacha20 key (nonce.take 16)) ([0, 0, 0, 0] ++ nonce.drop 16) 1
        m.length)).length := by omega
  rw [hsub, List.take_left, List.drop_left]
  rw [if_pos rfl]
  rw [hctlen, xorBytes_cancel _ _ (chachaStream_length _ _ _ _)]

theorem mem_le32_lt (x b : Nat) (h : b ∈ le32 x) : b < 256 := by
  simp [le32] at h
  rcases h with h | h | h | h <;> omega

theorem mem_ccSerialize_lt (s : CCState) (b : Nat) (h : b ∈ ccSerialize s) : b < 256 := by
  simp only [ccSerialize, List.mem_append] at h
  rcases h with ((((((((((((((h | h) | h) | h) | h) | h) | h) | h) | h) | h) | h) | h) | h) |
    h) | h) | h <;> exact mem_le32_lt _ _ h

theorem mem_chachaBlocks_lt (key nonce : List Nat) (counter cnt b : Nat)
    (h : b ∈ chachaBlocks key nonce counter cnt) : b < 256 := by
  induction cnt generalizing counter with
  | zero => simp [chachaBlocks] at h
  | succ m ih =>
    simp only [chachaBlocks, List.mem_append] at h
    rcases h with h | h
    · exact mem_ccSerialize_lt _ _ h
    · exact ih _ h

theorem mem_chachaStream_lt (key nonce : List Nat) (counter len b : Nat)
    (h : b ∈ chachaStream key nonce counter len) : b < 256 := by
  exact mem_chachaBlocks_lt key nonce counter _ b (List.mem_of_mem_take h)

theorem mem_toLE_lt (len x b : Nat) (h : b ∈ toLE len x) : b < 256 := by
  induction len generalizing x with
  | zero => simp [toLE] at h
  | succ m ih =>
    simp only [toLE, List.mem_cons] at h
    rcases h with h | h
    · omega
    · exact ih _ h

theorem mem_poly1305_lt (key msg : List Nat) (b : Nat) (h : b ∈ poly1305 key msg) :
    b < 256 := mem_toLE_lt _ _ _ h

theorem mem_xorBytes_lt (m s : List Nat) (b : Nat) (hm : ∀ x ∈ m, x < 256)
    (hs : ∀ x ∈ s, x < 256) (h : b ∈ xorBytes m s) : b < 256 := by
  induction m generalizing s with
  | nil => simp [xorBytes] at h
  | cons a m ih =>
    cases s with
    | nil => simp [xorBytes] at h
    | cons c s =>
      simp only [xorBytes, List.zipWith_cons_cons, List.mem_cons] at h
      rcases h with h | h
      · subst h
        have ha : a < 256 := hm a (by simp)
        have hc : c < 256 := hs c (by simp)
        have h2 : a < 2 ^ 8 := by omega
        have h2c : c < 2 ^ 8 := by omega
        have := Nat.xor_lt_two_pow h2 h2c
        omega
      · exact ih s (fun x hx => hm x (List.mem_cons_of_mem a hx))
          (fun x hx => hs x (List.mem_cons_of_mem c hx)) h

theorem mem_xchachaEncrypt_lt (m key nonce : List Nat) (hm : ∀ x ∈ m, x < 256) :
    ∀ b ∈ xchachaEncrypt m key nonce, b < 256 := by
  intro b hb
  simp only [xchachaEncrypt, List.mem_append] at hb
  rcases hb with hb | hb
  · exact mem_xorBytes_lt _ _ _ hm (fun x hx => mem_chachaStream_lt _ _ _ _ _ hx) hb
  · exact mem_poly1305_lt _ _ _ hb

/-! ## UTF-8 codec

`sodium.from_string` is `TextEncoder.encode` (UTF-8 encoding of the unicode
scalar values of a string); `sodium.to_string` is a fatal `TextDecoder`,
failing on invalid UTF-8. -/

/-- UTF-8 encoding of one unicode scalar value. -/
def utf8EncodeScalar (c : Char) : List Nat :=
  let v := c.toNat
  if v < 128 then [v]
  else if v < 2048 then [192 + v / 64, 128 + v % 64]
  else if v < 65536 then [224 + v / 4096, 128 + v / 64 % 64, 128 + v % 64]
  else [240 + v / 262144, 128 + v / 4096 % 64, 128 + v / 64 % 64, 128 + v % 64]

/-- UTF-8 encoding of a string's characters (model of `sodium.from_string`). -/
def utf8Encode : List Char → List Nat
  | [] => []
  | c :: cs => utf8EncodeScalar c ++ utf8Encode cs

/-- Decode one UTF-8 sequence starting at byte `b` with remaining input `bs`:
rejects truncated sequences, bad continuation bytes, overlong encodings,
surrogates and out-of-range values, as a fatal `TextDecoder` does. -/
def utf8DecodeOne (b : Nat) (bs : List Nat) : Option (Char × List Nat) :=
  if b < 128 then some (Char.ofNat b, bs)
  else if b < 194 then none
  else if b < 224 then
    match bs with
    | b1 :: rest =>
      if 128 ≤ b1 ∧ b1 < 192 then
        some (Char.ofNat ((b - 192) * 64 + (b1 - 128)), rest)
      else none
    | [] => none
  else if b < 240 then
    match bs with
    | b1 :: b2 :: rest =>
      let v := (b - 224) * 4096 + (b1 - 128) * 64 + (b2 - 128)
      if (128 ≤ b1 ∧ b1 < 192) ∧ (128 ≤ b2 ∧ b2 < 192) ∧ 2048 ≤ v ∧
          (v < 55296 ∨ 57343 < v) then
        some (Char.ofNat v, rest)
      else none
    | _ => none
  else if b < 245 then
    match bs with
    | b1 :: b2 :: b3 :: rest =>
      let v := (b - 240) * 262144 + (b1 - 128) * 4096 + (b2 - 128) * 64 + (b3 - 128)
      if (128 ≤ b1 ∧ b1 < 192) ∧ (128 ≤ b2 ∧ b2 < 192) ∧ (128 ≤ b3 ∧ b3 < 192) ∧
          65536 ≤ v ∧ v < 1114112 then
        some (Char.ofNat v, rest)
      else none
    | _ => none
  else none

theorem utf8DecodeOne_length (b : Nat) (bs : List Nat) (c : Char) (rest : List Nat)
    (h : utf8DecodeOne b bs = some (c, rest)) : rest.length ≤ bs.length := by
  unfold utf8DecodeOne at h
  repeat' split at h
  all_goals simp_all
  all_goals omega

/-- Fuelled UTF-8 decoding loop; each step consumes at least one byte, so
fuel equal to the input length always suffices. -/
def utf8DecodeLoop : Nat → List Nat → Option (List Char)
  | _, [] => some []
  | 0, _ :: _ => none
  | fuel + 1, b :: bs =>
    match utf8DecodeOne b bs with
    | some (c, rest) => (utf8DecodeLoop fuel rest).map (fun r => c :: r)
    | none => none

/-- Strict UTF-8 decoding (model of `sodium.to_string`, a `TextDecoder` with
`fatal: true`). -/
def utf8Decode (l : List Nat) : Option (List Char) := utf8DecodeLoop l.length l

theorem utf8DecodeLoop_fuel (fuel : Nat) :
    ∀ (l : List Nat) (fuel2 : Nat), l.length ≤ fuel → l.length ≤ fuel2 →
      utf8DecodeLoop fuel l = utf8DecodeLoop fuel2 l := by
  induction fuel with
  | zero =>
    intro l fuel2 hf _
    have : l = [] := List.eq_nil_of_length_eq_zero (by omega)
    subst this
    cases fuel2 <;> rfl
  | succ fuel ih =>
    intro l fuel2 hf hf2
    cases l with
    | nil => cases fuel2 <;> rfl
    | cons b bs =>
      cases fuel2 with
      | zero => simp at hf2
      | succ f2 =>
        simp only [utf8DecodeLoop]
        cases hone : utf8DecodeOne b bs with
        | none => rfl
        | some p =>
          obtain ⟨c, rest⟩ := p
          have hr := utf8DecodeOne_length b bs c rest hone
          simp only [List.length_cons] at hf hf2
          show (utf8DecodeLoop fuel rest).map (fun r => c :: r) =
            (utf8DecodeLoop f2 rest).map (fun r => c :: r)
          rw [ih rest f2 (by omega) (by omega)]

theorem char_toNat_valid (c : Char) :
    c.toNat < 55296 ∨ (57343 < c.toNat ∧ c.toNat < 1114112) := c.valid

theorem utf8EncodeScalar_one (c : Char) (h : c.toNat < 128) :
    utf8EncodeScalar c = [c.toNat] := by
  unfold utf8EncodeScalar
  rw [if_pos h]

theorem utf8EncodeScalar_two (c : Char) (h1 : ¬ c.toNat < 128) (h2 : c.toNat < 2048) :
    utf8EncodeScalar c = [192 + c.toNat / 64, 128 + c.toNat % 64] := by
  unfold utf8EncodeScalar
  rw [if_neg h1, if_pos h2]

theorem utf8EncodeScalar_three (c : Char) (h2 : ¬ c.toNat < 2048) (h3 : c.toNat < 65536) :
    utf8EncodeScalar c = [224 + c.toNat / 4096, 128 + c.toNat / 64 % 64, 128 + c.toNat % 64] := by
  unfold utf8EncodeScalar
  rw [if_neg (by omega), if_neg h2, if_pos h3]

theorem utf8EncodeScalar_four (c : Char) (h3 : ¬ c.toNat < 65536) :
    utf8EncodeScalar c = [240 + c.toNat / 262144, 128 + c.toNat / 4096 % 64,
      128 + c.toNat / 64 % 64, 128 + c.toNat % 64] := by
  unfold utf8EncodeScalar
  rw [if_neg (by omega), if_neg (by omega), if_neg h3]

theorem utf8Decode_step (b : Nat) (bs : List Nat) (c : Char) (rest : List Nat)
    (h : utf8DecodeOne b bs = some (c, rest)) :
    utf8Decode (b :: bs) = (utf8Decode rest).map (fun r => c :: r) := by
  have hr := utf8DecodeOne_length b bs c rest h
  unfold utf8Decode
  simp only [List.length_cons, utf8DecodeLoop, h]
  rw [utf8DecodeLoop_fuel bs.length rest rest.length (by omega) (by omega)]

theorem utf8Decode_encodeScalar (c : Char) (bs : List Nat) :
    utf8Decode (utf8EncodeScalar c ++ bs) = (utf8Decode bs).map (fun r => c :: r) := by
  have hv := char_toNat_valid c
  by_cases h1 : c.toNat < 128
  · have hone : utf8DecodeOne c.toNat bs = some (c, bs) := by
      unfold utf8DecodeOne
      rw [if_pos h1, Char.ofNat_toNat]
    rw [utf8EncodeScalar_one c h1, List.cons_append, List.nil_append,
      utf8Decode_step _ _ _ _ hone]
  · by_cases h2 : c.toNat < 2048
    · have hone : utf8DecodeOne (192 + c.toNat / 64) ((128 + c.toNat % 64) :: bs) =
          some (c, bs) := by
        unfold utf8DecodeOne
        rw [if_neg (by omega), if_neg (by omega), if_pos (by omega)]
        show (if 128 ≤ 128 + c.toNat % 64 ∧ 128 + c.toNat % 64 < 192 then
            some (Char.ofNat ((192 + c.toNat / 64 - 192) * 64 + (128 + c.toNat % 64 - 128)), bs)
          else none) = some (c, bs)
        rw [if_pos (by omega)]
        have he : (192 + c.toNat / 64 - 192) * 64 + (128 + c.toNat % 64 - 128) = c.toNat := by
          omega
        rw [he, Char.ofNat_toNat]
      rw [utf8EncodeScalar_two c h1 h2]
      simp only [List.cons_append, List.nil_append]
      rw [utf8Decode_step _ _ _ _ hone]
    · by_cases h3 : c.toNat < 65536
      · have hone : utf8DecodeOne (224 + c.toNat / 4096)
            ((128 + c.toNat / 64 % 64) :: (128 + c.toNat % 64) :: bs) = some (c, bs) := by
          unfold utf8DecodeOne
          rw [if_neg (by omega), if_neg (by omega), if_neg (by omega), if_pos (by omega)]
          show (if (128 ≤ 128 + c.toNat / 64 % 64 ∧ 128 + c.toNat / 64 % 64 < 192) ∧
              (128 ≤ 128 + c.toNat % 64 ∧ 128 + c.toNat % 64 < 192) ∧
              2048 ≤ (224 + c.toNat / 4096 - 224) * 4096 +
                (128 + c.toNat / 64 % 64 - 128) * 64 + (128 + c.toNat % 64 - 128) ∧
              ((224 + c.toNat / 4096 - 224) * 4096 + (128 + c.toNat / 64 % 64 - 128) * 64 +
                (128 + c.toNat % 64 - 128) < 55296 ∨
               57343 < (224 + c.toNat / 4096 - 224) * 4096 +
                (128 + c.toNat / 64 % 64 - 128) * 64 + (128 + c.toNat % 64 - 128)) then
            some (Char.ofNat ((224 + c.toNat / 4096 - 224) * 4096 +
              (128 + c.toNat / 64 % 64 - 128) * 64 + (128 + c.toNat % 64 - 128)), bs)
          else none) = some (c, bs)
          have he : (224 + c.toNat / 4096 - 224) * 4096 + (128 + c.toNat / 64 % 64 - 128) * 64 +
              (128 + c.toNat % 64 - 128) = c.toNat := by omega
          rw [he, if_pos (by omega), Char.ofNat_toNat]
        rw [utf8EncodeScalar_three c h2 h3]
        simp only [List.cons_append, List.nil_append]
        rw [utf8Decode_step _ _ _ _ hone]
      · have hone : utf8DecodeOne (240 + c.toNat / 262144)
            ((128 + c.toNat / 4096 % 64) :: (128 + c.toNat / 64 % 64) ::
              (128 + c.toNat % 64) :: bs) = some (c, bs) := by
          unfold utf8DecodeOne
          rw [if_neg (by omega), if_neg (by omega), if_neg (by omega), if_neg (by omega),
            if_pos (by omega)]
          show (if (128 ≤ 128 + c.toNat / 4096 % 64 ∧ 128 + c.toNat / 4096 % 64 < 192) ∧
              (128 ≤ 128 + c.toNat / 64 % 64 ∧ 128 + c.toNat / 64 % 64 < 192) ∧
              (128 ≤ 128 + c.toNat % 64 ∧ 128 + c.toNat % 64 < 192) ∧
              65536 ≤ (240 + c.toNat / 262144 - 240) * 262144 +
                (128 + c.toNat / 4096 % 64 - 128) * 4096 +
                (128 + c.toNat / 64 % 64 - 128) * 64 + (128 + c.toNat % 64 - 128) ∧
              (240 + c.toNat / 262144 - 240) * 262144 +
                (128 + c.toNat / 4096 % 64 - 128) * 4096 +
                (128 + c.toNat / 64 % 64 - 128) * 64 + (128 + c.toNat % 64 - 128) < 1114112 then
            some (Char.ofNat ((240 + c.toNat / 262144 - 240) * 262144 +
              (128 + c.toNat / 4096 % 64 - 128) * 4096 +
              (128 + c.toNat / 64 % 64 - 128) * 64 + (128 + c.toNat % 64 - 128)), bs)
          else none) = some (c, bs)
          have he : (240 + c.toNat / 262144 - 240) * 262144 +
              (128 + c.toNat / 4096 % 64 - 128) * 4096 + (128 + c.toNat / 64 % 64 - 128) * 64 +
              (128 + c.toNat % 64 - 128) = c.toNat := by omega
          rw [he, if_pos (by omega), Char.ofNat_toNat]
        rw [utf8EncodeScalar_four c h3]
        simp only [List.cons_append, List.nil_append]
        rw [utf8Decode_step _ _ _ _ hone]

/-- UTF-8 decoding inverts UTF-8 encoding. -/
theorem utf8Decode_encode (cs : List Char) : utf8Decode (utf8Encode cs) = some cs := by
  induction cs with
  | nil => rfl
  | cons c cs ih => rw [utf8Encode, utf8Decode_encodeScalar, ih]; rfl

theorem mem_utf8EncodeScalar_lt (c : Char) (b : Nat) (h : b ∈ utf8EncodeScalar c) : b < 256 := by
  have hv := char_toNat_valid c
  by_cases h1 : c.toNat < 128
  · rw [utf8EncodeScalar_one c h1] at h
    simp at h; omega
  · by_cases h2 : c.toNat < 2048
    · rw [utf8EncodeScalar_two c h1 h2] at h
      simp at h; rcases h with h | h <;> omega
    · by_cases h3 : c.toNat < 65536
      · rw [utf8EncodeScalar_three c h2 h3] at h
        simp at h; rcases h with h | h | h <;> omega
      · rw [utf8EncodeScalar_four c h3] at h
        simp at h; rcases h with h | h | h | h <;> omega

theorem mem_utf8Encode_lt (cs : List Char) (b : Nat) (h : b ∈ utf8Encode cs) : b < 256 := by
  induction cs with
  | nil => simp [utf8Encode] at h
  | cons c cs ih =>
    rw [utf8Encode] at h
    rcases List.mem_append.mp h with h | h
    · exact mem_utf8EncodeScalar_lt c b h
    · exact ih h

/-! ## Hex codec (`sodium.to_hex` / `sodium.from_hex`) -/

/-- One lowercase hex digit (`sodium.to_hex` output alphabet). -/
def hexDigitChar (n : Nat) : Char :=
  if n < 10 then Char.ofNat (48 + n) else Char.ofNat (87 + n)

/-- Lowercase hex encoding of a byte list (model of `sodium.to_hex`). -/
def to_hex : List Nat → List Char
  | [] => []
  | b :: r => hexDigitChar (b / 16) :: hexDigitChar (b % 16) :: to_hex r

/-- Value of one hex digit, accepting both cases as `sodium_hex2bin` does. -/
def hexVal (c : Char) : Option Nat :=
  if '0' ≤ c ∧ c ≤ '9' then some (c.toNat - 48)
  else if 'a' ≤ c ∧ c ≤ 'f' then some (c.toNat - 87)
  else if 'A' ≤ c ∧ c ≤ 'F' then some (c.toNat - 55)
  else none

/-- Hex decoding of an even-length digit string (model of `sodium.from_hex`). -/
def from_hex : List Char → Option (List Nat)
  | [] => some []
  | [_] => none
  | c1 :: c2 :: r =>
    match hexVal c1, hexVal c2, from_hex r with
    | some h, some l, some rest => some ((16 * h + l) :: rest)
    | _, _, _ => none

/-- The hex-digit test of the JS regexes `/^[a-f0-9]+$/i` and `/^[a-f0-9]{64}$/i`
applied to one character. -/
def isHexCharCI (c : Char) : Bool :=
  ('0' ≤ c && c ≤ '9') || ('a' ≤ c && c ≤ 'f') || ('A' ≤ c && c ≤ 'F')

theorem hexVal_hexDigitChar : ∀ n < 16, hexVal (hexDigitChar n) = some n := by decide

theorem from_hex_to_hex (l : List Nat) (h : ∀ b ∈ l, b < 256) :
    from_hex (to_hex l) = some l := by
  induction l with
  | nil => rfl
  | cons b r ih =>
    have hb : b < 256 := h b (by simp)
    rw [to_hex, from_hex, hexVal_hexDigitChar _ (by omega), hexVal_hexDigitChar _ (by omega),
      ih (fun x hx => h x (List.mem_cons_of_mem b hx))]
    show some ((16 * (b / 16) + b % 16) :: r) = some (b :: r)
    have : 16 * (b / 16) + b % 16 = b := by omega
    rw [this]

theorem isHexCharCI_hexDigitChar : ∀ n < 16, isHexCharCI (hexDigitChar n) = true := by decide

theorem hexDigitChar_ne_hash : ∀ n < 16, hexDigitChar n ≠ '#' := by decide

theorem to_hex_length (l : List Nat) : (to_hex l).length = 2 * l.length := by
  induction l with
  | nil => rfl
  | cons b r ih => rw [to_hex]; simp [ih]; omega

/-! ## Base64 (`btoa` in `publishPaste`, `atob` in `fetchPaste`)

`publishPaste` builds its event content with `btoa` over the binary string of
`nonce || ciphertext` (chunked only to avoid a JS argument-count limit, which
does not change the output).  `fetchPaste` decodes with `atob`, whose
behaviour is the WHATWG forgiving-base64 decode. -/

/-- The base64 alphabet used by `btoa`. -/
def b64Alphabet : List Char :=
  ['A', 'B', 'C', 'D', 'E', 'F', 'G', 'H', 'I', 'J', 'K', 'L', 'M',
   'N', 'O', 'P', 'Q', 'R', 'S', 'T', 'U', 'V', 'W', 'X', 'Y', 'Z',
   'a', 'b', 'c', 'd', 'e', 'f', 'g', 'h', 'i', 'j', 'k', 'l', 'm',
   'n', 'o', 'p', 'q', 'r', 's', 't', 'u', 'v', 'w', 'x', 'y', 'z',
   '0', '1', '2', '3', '4', '5', '6', '7', '8', '9', '+', '/']

/-- Character for a sextet value. -/
def b64Char (n : Nat) : Char := b64Alphabet.getD n 'A'

/-- Sextet value of a character (the inverse table used by `atob`). -/
def b64Val (c : Char) : Option Nat :=
  if 'A' ≤ c ∧ c ≤ 'Z' then some (c.toNat - 65)
  else if 'a' ≤ c ∧ c ≤ 'z' then some (c.toNat - 71)
  else if '0' ≤ c ∧ c ≤ '9' then some (c.toNat + 4)
  else if c = '+' then some 62
  else if c = '/' then some 63
  else none

/-- ASCII whitespace skipped by forgiving-base64 decode. -/
def isB64Ws (c : Char) : Bool :=
  c = '\t' || c = '\n' || c = '\x0c' || c = '\r' || c = ' '

/-- The base64 characters of `btoa`'s output, without the `=` padding. -/
def base64Body : List Nat → List Char
  | [] => []
  | [a] => [b64Char (a / 4), b64Char (a % 4 * 16)]
  | [a, b] => [b64Char (a / 4), b64Char (a % 4 * 16 + b / 16), b64Char (b % 16 * 4)]
  | a :: b :: c :: rest =>
    b64Char (a / 4) :: b64Char (a % 4 * 16 + b / 16) :: b64Char (b % 16 * 4 + c / 64) ::
      b64Char (c % 64) :: base64Body rest

/-- The `=` padding appended by `btoa`. -/
def base64Pad : List Nat → List Char
  | [] => []
  | [_] => ['=', '=']
  | [_, _] => ['=']
  | _ :: _ :: _ :: rest => base64Pad rest

/-- Base64 encoding of a byte list (model of `btoa` over a binary string). -/
def base64Encode (l : List Nat) : List Char := base64Body l ++ base64Pad l

/-- Helper for `dropPad`: processes `c1 :: c2 :: l`, keeping a two-character
window so the trailing pair can be inspected at the end of the input. -/
def dropPad2 (c1 c2 : Char) : List Char → List Char
  | [] => if c2 = '=' then (if c1 = '=' then [] else [c1]) else [c1, c2]
  | c3 :: rest => c1 :: dropPad2 c2 c3 rest

/-- Remove up to two trailing `=` characters (forgiving-base64 step 2). -/
def dropPad : List Char → List Char
  | [] => []
  | [c] => if c = '=' then [] else [c]
  | c1 :: c2 :: rest => dropPad2 c1 c2 rest

/-- Decode base64 characters in chunks of four, allowing a final chunk of two
or three characters whose spare bits are discarded (forgiving-base64 main
loop); fails on any character outside the alphabet and on a final chunk of
one character. -/
def decode4 : List Char → Option (List Nat)
  | [] => some []
  | [_] => none
  | [c1, c2] =>
    match b64Val c1, b64Val c2 with
    | some a, some b => some [a * 4 + b / 16]
    | _, _ => none
  | [c1, c2, c3] =>
    match b64Val c1, b64Val c2, b64Val c3 with
    | some a, some b, some c => some [a * 4 + b / 16, b % 16 * 16 + c / 4]
    | _, _, _ => none
  | c1 :: c2 :: c3 :: c4 :: rest =>
    match b64Val c1, b64Val c2, b64Val c3, b64Val c4, decode4 rest with
    | some a, some b, some c, some d, some r =>
      some ((a * 4 + b / 16) :: (b % 16 * 16 + c / 4) :: (c % 4 * 64 + d) :: r)
    | _, _, _, _, _ => none

/-- WHATWG forgiving-base64 decode (the behaviour of `atob`): strip ASCII
whitespace, strip up to two trailing `=` when the length is a multiple of
four, then decode; `none` models the `InvalidCharacterError` throw. -/
def atobModel (s : List Char) : Option (List Nat) :=
  let t := s.filter (fun c => !isB64Ws c)
  decode4 (if t.length % 4 = 0 then dropPad t else t)

/-! ### Base64 round-trip -/

theorem b64Val_b64Char : ∀ n < 64, b64Val (b64Char n) = some n := by decide

theorem b64Char_not_ws (n : Nat) : isB64Ws (b64Char n) = false := by
  by_cases h : n < 64
  · revert n
    decide
  · rw [show b64Char n = 'A' from List.getD_eq_default _ _ (by simp [b64Alphabet]; omega)]
    rfl

theorem b64Char_ne_eq (n : Nat) : b64Char n ≠ '=' := by
  by_cases h : n < 64
  · revert n
    decide
  · rw [show b64Char n = 'A' from List.getD_eq_default _ _ (by simp [b64Alphabet]; omega)]
    decide

theorem mem_base64Body (l : List Nat) (c : Char) (h : c ∈ base64Body l) :
    ∃ n, c = b64Char n := by
  induction l using base64Body.induct with
  | case1 => simp [base64Body] at h
  | case2 a =>
    simp only [base64Body, List.mem_cons, List.not_mem_nil, or_false] at h
    rcases h with h | h <;> exact ⟨_, h⟩
  | case3 a b =>
    simp only [base64Body, List.mem_cons, List.not_mem_nil, or_false] at h
    rcases h with h | h | h <;> exact ⟨_, h⟩
  | case4 a b c' rest ih =>
    simp only [base64Body, List.mem_cons] at h
    rcases h with h | h | h | h | h
    · exact ⟨_, h⟩
    · exact ⟨_, h⟩
    · exact ⟨_, h⟩
    · exact ⟨_, h⟩
    · exact ih h

theorem mem_base64Pad (l : List Nat) (c : Char) (h : c ∈ base64Pad l) : c = '=' := by
  induction l using base64Pad.induct with
  | case1 => simp [base64Pad] at h
  | case2 a => simp only [base64Pad, List.mem_cons, List.not_mem_nil, or_false] at h; tauto
  | case3 a b => simp only [base64Pad, List.mem_cons, List.not_mem_nil, or_false] at h; tauto
  | case4 a b c' rest ih => exact ih h

theorem base64Encode_not_ws (l : List Nat) (c : Char) (h : c ∈ base64Encode l) :
    isB64Ws c = false := by
  rcases List.mem_append.mp h with h | h
  · obtain ⟨n, rfl⟩ := mem_base64Body l c h
    exact b64Char_not_ws n
  · rw [mem_base64Pad l c h]
    rfl

theorem base64Encode_length_mod (l : List Nat) : (base64Encode l).length % 4 = 0 := by
  induction l using base64Pad.induct with
  | case1 => rfl
  | case2 a => simp [base64Encode, base64Body, base64Pad]
  | case3 a b => simp [base64Encode, base64Body, base64Pad]
  | case4 a b c rest ih =>
    simp only [base64Encode, base64Body, base64Pad, List.length_append,
      List.length_cons] at ih ⊢
    omega

theorem dropPad_append : ∀ (ys zs : List Char), 2 ≤ zs.length →
    dropPad (ys ++ zs) = ys ++ dropPad zs := by
  intro ys
  induction ys with
  | nil => intro zs _; simp
  | cons y1 ys ih =>
    intro zs h
    cases ys with
    | nil =>
      cases zs with
      | nil => simp at h
      | cons z1 t =>
        cases t with
        | nil => simp at h
        | cons z2 zr =>
          show dropPad2 y1 z1 (z2 :: zr) = [y1] ++ dropPad (z1 :: z2 :: zr)
          rw [dropPad2]
          rfl
    | cons y2 ys2 =>
      have hih := ih zs h
      have hne : ys2 ++ zs ≠ [] := by
        intro hx
        have h0 : (ys2 ++ zs).length = 0 := by rw [hx]; rfl
        rw [List.length_append] at h0
        omega
      obtain ⟨w, ws, hw⟩ := List.exists_cons_of_ne_nil hne
      simp only [List.cons_append] at hih ⊢
      rw [hw] at hih ⊢
      show dropPad2 y1 y2 (w :: ws) = y1 :: y2 :: (ys2 ++ dropPad zs)
      rw [dropPad2]
      rw [show dropPad2 y2 w ws = dropPad (y2 :: w :: ws) from rfl, hih]

theorem dropPad_two_eq : dropPad ['=', '='] = [] := by decide

theorem base64Encode_ne_nil_length (l : List Nat) (h : l ≠ []) :
    2 ≤ (base64Encode l).length := by
  induction l using base64Pad.induct with
  | case1 => exact absurd rfl h
  | case2 a => simp [base64Encode, base64Body, base64Pad]
  | case3 a b => simp [base64Encode, base64Body, base64Pad]
  | case4 a b c rest ih => simp [base64Encode, base64Body, base64Pad]

theorem dropPad_base64Encode (l : List Nat) : dropPad (base64Encode l) = base64Body l := by
  induction l using base64Pad.induct with
  | case1 => rfl
  | case2 a =>
    show dropPad ([b64Char (a / 4), b64Char (a % 4 * 16)] ++ ['=', '=']) = _
    rw [dropPad_append _ _ (by simp), dropPad_two_eq, List.append_nil]
    rfl
  | case3 a b =>
    show dropPad ([b64Char (a / 4), b64Char (a % 4 * 16 + b / 16)] ++
      [b64Char (b % 16 * 4), '=']) = _
    rw [dropPad_append _ _ (by simp)]
    show _ ++ (if ('=' : Char) = '=' then
        (if b64Char (b % 16 * 4) = '=' then ([] : List Char) else [b64Char (b % 16 * 4)])
      else [b64Char (b % 16 * 4), '=']) = _
    rw [if_pos rfl, if_neg (b64Char_ne_eq _)]
    rfl
  | case4 a b c rest ih =>
    by_cases hr : rest = []
    · subst hr
      show dropPad ([b64Char (a / 4), b64Char (a % 4 * 16 + b / 16)] ++
        [b64Char (b % 16 * 4 + c / 64), b64Char (c % 64)]) = _
      rw [dropPad_append _ _ (by simp)]
      show _ ++ (if b64Char (c % 64) = '=' then _ else
        [b64Char (b % 16 * 4 + c / 64), b64Char (c % 64)]) = _
      rw [if_neg (b64Char_ne_eq _)]
      rfl
    · show dropPad ([b64Char (a / 4), b64Char (a % 4 * 16 + b / 16),
        b64Char (b % 16 * 4 + c / 64), b64Char (c % 64)] ++ base64Encode rest) = _
      rw [dropPad_append _ _ (base64Encode_ne_nil_length rest hr), ih]
      rfl

theorem decode4_base64Body (l : List Nat) (hb : ∀ b ∈ l, b < 256) :
    decode4 (base64Body l) = some l := by
  induction l using base64Body.induct with
  | case1 => rfl
  | case2 a =>
    have ha : a < 256 := hb a (by simp)
    show decode4 [b64Char (a / 4), b64Char (a % 4 * 16)] = some [a]
    rw [decode4, b64Val_b64Char (a / 4) (by omega), b64Val_b64Char (a % 4 * 16) (by omega)]
    show some [a / 4 * 4 + a % 4 * 16 / 16] = some [a]
    have he : a / 4 * 4 + a % 4 * 16 / 16 = a := by omega
    rw [he]
  | case3 a b =>
    have ha : a < 256 := hb a (by simp)
    have hbb : b < 256 := hb b (by simp)
    show decode4 [b64Char (a / 4), b64Char (a % 4 * 16 + b / 16), b64Char (b % 16 * 4)] =
      some [a, b]
    rw [decode4, b64Val_b64Char (a / 4) (by omega),
      b64Val_b64Char (a % 4 * 16 + b / 16) (by omega),
      b64Val_b64Char (b % 16 * 4) (by omega)]
    show some [a / 4 * 4 + (a % 4 * 16 + b / 16) / 16,
      (a % 4 * 16 + b / 16) % 16 * 16 + b % 16 * 4 / 4] = some [a, b]
    have h1 : a / 4 * 4 + (a % 4 * 16 + b / 16) / 16 = a := by omega
    have h2 : (a % 4 * 16 + b / 16) % 16 * 16 + b % 16 * 4 / 4 = b := by omega
    rw [h1, h2]
  | case4 a b c rest ih =>
    have ha : a < 256 := hb a (by simp)
    have hbb : b < 256 := hb b (by simp)
    have hc : c < 256 := hb c (by simp)
    have ihr := ih (fun x hx => hb x (by simp [hx]))
    show decode4 (b64Char (a / 4) :: b64Char (a % 4 * 16 + b / 16) ::
      b64Char (b % 16 * 4 + c / 64) :: b64Char (c % 64) :: base64Body rest) =
      some (a :: b :: c :: rest)
    rw [decode4, b64Val_b64Char (a / 4) (by omega),
      b64Val_b64Char (a % 4 * 16 + b / 16) (by omega),
      b64Val_b64Char (b % 16 * 4 + c / 64) (by omega),
      b64Val_b64Char (c % 64) (by omega), ihr]
    show some ((a / 4 * 4 + (a % 4 * 16 + b / 16) / 16) ::
      ((a % 4 * 16 + b / 16) % 16 * 16 + (b % 16 * 4 + c / 64) / 4) ::
      ((b % 16 * 4 + c / 64) % 4 * 64 + c % 64) :: rest) = some (a :: b :: c :: rest)
    have h1 : a / 4 * 4 + (a % 4 * 16 + b / 16) / 16 = a := by omega
    have h2 : (a % 4 * 16 + b / 16) % 16 * 16 + (b % 16 * 4 + c / 64) / 4 = b := by omega
    have h3 : (b % 16 * 4 + c / 64) % 4 * 64 + c % 64 = c := by omega
    rw [h1, h2, h3]

/-- `atob` inverts `btoa`: forgiving-base64 decode of the base64 encoding of a
byte list recovers the bytes. -/
theorem atobModel_base64Encode (l : List Nat) (hb : ∀ b ∈ l, b < 256) :
    atobModel (base64Encode l) = some l := by
  unfold atobModel
  rw [List.filter_eq_self.mpr (fun c hc => by
    rw [Bool.not_eq_true']
    exact base64Encode_not_ws l c hc)]
  show decode4 (if (base64Encode l).length % 4 = 0 then dropPad (base64Encode l)
    else base64Encode l) = some l
  rw [if_pos (base64Encode_length_mod l), dropPad_base64Encode]
  exact decode4_base64Body l hb

/-! ## `src/crypto/encrypt.ts` and `src/crypto/decrypt.ts` -/

/-- The one error class declared and thrown by `decryptPaste`
(`class DecryptionError extends Error`); the catch block rethrows every
failure as this single kind. -/
inductive DecryptError where
  | decryptionError : DecryptError
deriving DecidableEq, Repr

/-- The record returned by `encryptPaste`. -/
structure EncryptedPaste where
  ciphertext : List Nat
  nonce : List Nat
  key : List Nat
  docId : List Char

/-- `encryptPaste` from `src/crypto/encrypt.ts`: the three `randombytes_buf`
outputs (32-byte key, 24-byte nonce, 32 document-id bytes) are passed in as
explicit arguments, the plaintext is UTF-8 encoded with `from_string` and
encrypted with `crypto_aead_xchacha20poly1305_ietf_encrypt`; no size check
of any kind is performed. -/
def encryptPaste (rndKey rndNonce rndDocId : List Nat) (plaintext : String) : EncryptedPaste :=
  { ciphertext := xchachaEncrypt (utf8Encode plaintext.data) rndKey rndNonce,
    nonce := rndNonce,
    key := rndKey,
    docId := to_hex rndDocId }

/-- `decryptPaste` from `src/crypto/decrypt.ts`: runs the libsodium decrypt
and `to_string` inside a try block whose catch rethrows any failure
(short ciphertext, failed tag check, or invalid UTF-8) as the single
`DecryptionError`. -/
def decryptPaste (ciphertext nonce key : List Nat) : Except DecryptError String :=
  match xchachaDecrypt ciphertext key nonce with
  | .error _ => .error .decryptionError
  | .ok pt =>
    match utf8Decode pt with
    | some chars => .ok (String.mk chars)
    | none => .error .decryptionError

/-- Observable final state of one `decryptPaste` call: its result together
with the final contents of the one intermediate buffer the function
allocates (`plaintext`, `null` until libsodium returns). -/
structure DecryptTrace where
  result : Except DecryptError String
  plaintextBuf : Option (List Nat)

/-- `decryptPaste` with its buffer lifecycle made explicit: the `finally`
block runs `sodium.memzero(plaintext)` on every exit path on which the
buffer was populated, so the buffer's final contents are all zeros; on
failure of the decrypt call itself the buffer was never assigned. -/
def decryptPasteTraced (ciphertext nonce key : List Nat) : DecryptTrace :=
  match xchachaDecrypt ciphertext key nonce with
  | .error _ => { result := .error .decryptionError, plaintextBuf := none }
  | .ok pt =>
    { result :=
        match utf8Decode pt with
        | some chars => .ok (String.mk chars)
        | none => .error .decryptionError,
      plaintextBuf := some (List.replicate pt.length 0) }

/-! ## `src/nostr/fetch.ts` and the publish content of `publishPaste` -/

/-- Error classes of the fetch path: `NotFoundError` and `InvalidEventError`
from `src/nostr/errors.ts`, plus the plain `Error` thrown by the docId
format guard at the top of `fetchPaste`. -/
inductive NostrError where
  | notFound : NostrError
  | invalidEvent : NostrError
  | invalidDocId : NostrError
deriving DecidableEq, Repr

/-- The event content built by `publishPaste`:
`base64(nonce || ciphertext)` via `btoa`. -/
def publishContent (nonce ciphertext : List Nat) : String :=
  String.mk (base64Encode (nonce ++ ciphertext))

/-- The base64-decode-and-split step `fetchPaste` applies to fetched event
content: `atob` failure throws `InvalidEventError`, a decoded length below
24 throws `InvalidEventError`, otherwise the bytes are split at offset 24
into nonce and ciphertext. -/
def decodeEventContent (content : String) : Except NostrError (List Nat × List Nat) :=
  match atobModel content.data with
  | none => .error .invalidEvent
  | some combined =>
    if combined.length < 24 then .error .invalidEvent
    else .ok (combined.take 24, combined.drop 24)

/-- The docId validation regex of `fetchPaste`: `/^[a-f0-9]{64}$/i`. -/
def docIdTest (docId : String) : Bool :=
  docId.length == 64 && docId.data.all isHexCharCI

/-- `fetchPaste` from `src/nostr/fetch.ts`, with the relay pool lookup
passed in as a function from docId to the content of the first event
found (`none` models "no event"): the docId guard throws before the pool
is consulted, then the fetched content is decoded and split. -/
def fetchPaste (relay : String → Option String) (docId : String) :
    Except NostrError (List Nat × List Nat) :=
  if ¬ docIdTest docId then .error .invalidDocId
  else
    match relay docId with
    | none => .error .notFound
    | some content => decodeEventContent content

/-! ## `src/utils/url.ts` -/

/-- Error kinds thrown by `parseCapabilityUrl`: the three explicit throws,
plus the kinds of the two external throws it does not raise itself (the
`TypeError` of `new URL` on an unparsable web-form input, and a
`sodium.from_hex` failure, unreachable after the regex check). -/
inductive UrlError where
  | missingKeyFragment : UrlError
  | invalidKeyLength : UrlError
  | invalidKeyFormat : UrlError
  | urlConstructorError : UrlError
  | hexDecodeFailure : UrlError
deriving DecidableEq, Repr

/-- The scheme prefix `"noslock://"`. -/
def noslockScheme : List Char := ['n', 'o', 's', 'l', 'o', 'c', 'k', ':', '/', '/']

/-- `url.startsWith("noslock://")`. -/
def startsWithNoslock : List Char → Bool
  | 'n' :: 'o' :: 's' :: 'l' :: 'o' :: 'c' :: 'k' :: ':' :: '/' :: '/' :: _ => true
  | _ => false

/-- JS `String.prototype.split` on `"#"`. -/
def splitHash : List Char → List (List Char)
  | [] => [[]]
  | c :: rest =>
    if c = '#' then [] :: splitHash rest
    else
      match splitHash rest with
      | h :: t => (c :: h) :: t
      | [] => [[c]]

/-- The key regex `/^[a-f0-9]+$/i` of `parseCapabilityUrl`. -/
def hexRegexPlus (l : List Char) : Bool := !l.isEmpty && l.all isHexCharCI

/-- `buildCapabilityUrl` from `src/utils/url.ts`:
`noslock://<docId>#<to_hex key>`. -/
def buildCapabilityUrl (docId : String) (key : List Nat) : String :=
  String.mk (noslockScheme ++ (docId.data ++ '#' :: to_hex key))

/-- `parts[1]` of the `split("#")` in the noslock branch of
`parseCapabilityUrl`: the text between the first and second `#` of the
part after the scheme (all of it when there is no second `#`). -/
def noslockKeyPart (url : String) : List Char :=
  (splitHash (url.data.drop 10)).getD 1 []

/-- `parts[0]` of the same split: the text between the scheme and the
first `#`. -/
def noslockDocPart (url : String) : List Char :=
  (splitHash (url.data.drop 10)).getD 0 []

/-- `parseCapabilityUrl` from `src/utils/url.ts`.  The checks run in source
order: missing `#`, then (in the noslock branch) key length ≠ 64, then the
hex regex, then `sodium.from_hex`.  The docId is taken verbatim with no
validation.  The web-form branch calls the browser's WHATWG `new URL`,
which is external to the repository; it is passed in as the parameter
`urlParse`, returning the `(pathname, hash)` pair or `none` when the URL
constructor throws its `TypeError`.  In the noslock branch, JS `parts[1]`
is modelled by `getD 1 []`; the two agree whenever that element exists,
which is the case whenever the branch is reached. -/
def parseCapabilityUrl (urlParse : String → Option (String × String)) (url : String) :
    Except UrlError (String × List Nat) :=
  if '#' ∉ url.data then .error .missingKeyFragment
  else if startsWithNoslock url.data then
    if (noslockKeyPart url).length ≠ 64 then .error .invalidKeyLength
    else if ¬ hexRegexPlus (noslockKeyPart url) then .error .invalidKeyFormat
    else
      match from_hex (noslockKeyPart url) with
      | some key => .ok (String.mk (noslockDocPart url), key)
      | none => .error .hexDecodeFailure
  else
    match urlParse url with
    | none => .error .urlConstructorError
    | some (pathname, hash) =>
      if (hash.data.drop 1).length ≠ 64 then .error .invalidKeyLength
      else if ¬ hexRegexPlus (hash.data.drop 1) then .error .invalidKeyFormat
      else
        match from_hex (hash.data.drop 1) with
        | some key => .ok (String.mk (pathname.data.drop 1), key)
        | none => .error .hexDecodeFailure

/-! ## Supporting lemmas about the repository functions -/

theorem splitHash_append_hash (d k : List Char) (hd : '#' ∉ d) :
    splitHash (d ++ '#' :: k) = d :: splitHash k := by
  induction d with
  | nil =>
    show splitHash ('#' :: k) = [] :: splitHash k
    rw [splitHash, if_pos rfl]
  | cons c d ih =>
    have hc : c ≠ '#' := fun h => hd (h ▸ List.mem_cons_self c d)
    have hd2 : '#' ∉ d := fun h => hd (List.mem_cons_of_mem c h)
    show splitHash (c :: (d ++ '#' :: k)) = (c :: d) :: splitHash k
    rw [splitHash, if_neg hc, ih hd2]

theorem splitHash_no_hash (l : List Char) (hl : '#' ∉ l) : splitHash l = [l] := by
  induction l with
  | nil => rfl
  | cons c l ih =>
    have hc : c ≠ '#' := fun h => hl (h ▸ List.mem_cons_self c l)
    have hl2 : '#' ∉ l := fun h => hl (List.mem_cons_of_mem c h)
    rw [splitHash, if_neg hc, ih hl2]

theorem mem_to_hex (l : List Nat) (hb : ∀ b ∈ l, b < 256) (c : Char) (h : c ∈ to_hex l) :
    ∃ n, n < 16 ∧ c = hexDigitChar n := by
  induction l with
  | nil => simp [to_hex] at h
  | cons b r ih =>
    have hblt : b < 256 := hb b (by simp)
    rw [to_hex] at h
    simp only [List.mem_cons] at h
    rcases h with h | h | h
    · exact ⟨b / 16, by omega, h⟩
    · exact ⟨b % 16, by omega, h⟩
    · exact ih (fun x hx => hb x (List.mem_cons_of_mem b hx)) h

theorem to_hex_no_hash (l : List Nat) (hb : ∀ b ∈ l, b < 256) : '#' ∉ to_hex l := by
  intro h
  obtain ⟨n, hn, he⟩ := mem_to_hex l hb '#' h
  exact hexDigitChar_ne_hash n hn he.symm

theorem hexRegexPlus_to_hex (l : List Nat) (hne : l ≠ []) (hb : ∀ b ∈ l, b < 256) :
    hexRegexPlus (to_hex l) = true := by
  unfold hexRegexPlus
  rw [Bool.and_eq_true]
  constructor
  · cases l with
    | nil => exact absurd rfl hne
    | cons b r => rw [to_hex]; rfl
  · rw [List.all_eq_true]
    intro c hc
    obtain ⟨n, hn, he⟩ := mem_to_hex l hb c hc
    rw [he]
    exact isHexCharCI_hexDigitChar n hn

theorem decryptPasteTraced_result (ct nonce key : List Nat) :
    (decryptPasteTraced ct nonce key).result = decryptPaste ct nonce key := by
  unfold decryptPasteTraced decryptPaste
  cases xchachaDecrypt ct key nonce <;> rfl

theorem decodeEventContent_publishContent (nonce ct : List Nat)
    (hn : nonce.length = 24) (hb : ∀ b ∈ nonce ++ ct, b < 256) :
    decodeEventContent (publishContent nonce ct) = .ok (nonce, ct) := by
  unfold decodeEventContent publishContent
  rw [show (String.mk (base64Encode (nonce ++ ct))).data = base64Encode (nonce ++ ct) from rfl]
  rw [atobModel_base64Encode _ hb]
  show (if (nonce ++ ct).length < 24 then Except.error NostrError.invalidEvent
    else Except.ok ((nonce ++ ct).take 24, (nonce ++ ct).drop 24)) = Except.ok (nonce, ct)
  rw [if_neg (by rw [List.length_append]; omega)]
  rw [← hn, List.take_left, List.drop_left]

theorem decryptPaste_encryptPaste (key nonce rndDocId : List Nat) (P : String) :
    decryptPaste (encryptPaste key nonce rndDocId P).ciphertext nonce key = .ok P := by
  unfold decryptPaste encryptPaste
  rw [xchachaDecrypt_encrypt]
  show (match utf8Decode (utf8Encode P.data) with
    | some chars => Except.ok (String.mk chars)
    | none => Except.error DecryptError.decryptionError) = Except.ok P
  rw [utf8Decode_encode]

theorem utf8Encode_replicate_a_length (n : Nat) :
    (utf8Encode (List.replicate n 'a')).length = n := by
  induction n with
  | zero => rfl
  | succ m ih =>
    rw [List.replicate_succ, utf8Encode, utf8EncodeScalar_one 'a' (by decide)]
    simp [ih]

/-! ## Claim theorems -/

/-- C1: for every plaintext string `P` (including the empty string and
multi-byte Unicode strings) and every 24-byte nonce, encrypting `P` with
`encryptPaste`, encoding nonce and ciphertext as `base64(nonce || ciphertext)`
as `publishPaste` does, decoding that payload back into nonce and ciphertext
as `fetchPaste` does, and decrypting with `decryptPaste` under the same key
returns exactly `P`. -/
theorem publish_fetch_decrypt_roundtrip (P : String) (key nonce rndDocId : List Nat)
    (hn : nonce.length = 24) (hnb : ∀ b ∈ nonce, b < 256) :
    decodeEventContent (publishContent nonce (encryptPaste key nonce rndDocId P).ciphertext) =
      .ok (nonce, (encryptPaste key nonce rndDocId P).ciphertext) ∧
    decryptPaste (encryptPaste key nonce rndDocId P).ciphertext nonce key = .ok P := by
  have hctb : ∀ b ∈ (encryptPaste key nonce rndDocId P).ciphertext, b < 256 :=
    mem_xchachaEncrypt_lt _ key nonce (mem_utf8Encode_lt P.data)
  refine ⟨?_, decryptPaste_encryptPaste key nonce rndDocId P⟩
  refine decodeEventContent_publishContent _ _ hn ?_
  intro b hb
  rcases List.mem_append.mp hb with h | h
  · exact hnb b h
  · exact hctb b h

/-- C1 witness: the round trip at the concrete plaintext `"Hello, Noslock!"`
under the all-zero 32-byte key and all-zero 24-byte nonce. -/
theorem publish_fetch_decrypt_roundtrip_witness :
    (List.replicate 24 0).length = 24 ∧
    decryptPaste (encryptPaste (List.replicate 32 0) (List.replicate 24 0)
      (List.replicate 32 0) "Hello, Noslock!").ciphertext (List.replicate 24 0)
      (List.replicate 32 0) = .ok "Hello, Noslock!" :=
  ⟨by decide,
   (publish_fetch_decrypt_roundtrip "Hello, Noslock!" (List.replicate 32 0)
     (List.replicate 24 0) (List.replicate 32 0) (by decide) (by decide)).2⟩

/-- C2 counterexample: a base64 string of forty `'A'` characters decodes to
30 bytes — fewer than 40 — yet the decode step of `fetchPaste` accepts it,
returning a 24-byte nonce and a 6-byte ciphertext, because the code checks
only for a decoded length below 24, not 40. -/
theorem decodeEventContent_accepts_30_bytes :
    atobModel (String.mk (List.replicate 40 'A')).data = some (List.replicate 30 0) ∧
    decodeEventContent (String.mk (List.replicate 40 'A')) =
      .ok (List.replicate 24 0, List.replicate 6 0) :=
  ⟨by decide, rfl⟩

/-- C2 amended: the decode step of `fetchPaste` fails — always with the
`InvalidEventError` kind — exactly when the base64 decode itself fails or
the decoded byte length is less than 24 (not 40): a payload of 24 to 39
decoded bytes is accepted by the decode step. -/
theorem decodeEventContent_error_iff (content : String) :
    decodeEventContent content = .error .invalidEvent ↔
      (atobModel content.data = none ∨
       ∃ l, atobModel content.data = some l ∧ l.length < 24) := by
  unfold decodeEventContent
  cases h : atobModel content.data with
  | none => simp
  | some l =>
    by_cases h24 : l.length < 24
    · simp [if_pos h24, h24]
    · simp [if_neg h24, h24]

/-- C4: for every hex docId and every 32-byte key,
`parseCapabilityUrl (buildCapabilityUrl docId key)` returns exactly
`(docId, key)`, for any behaviour of the external WHATWG URL parser. -/
theorem parseCapabilityUrl_buildCapabilityUrl (up : String → Option (String × String))
    (docId : String) (key : List Nat) (hdhex : ∀ c ∈ docId.data, isHexCharCI c = true)
    (hk : key.length = 32) (hkb : ∀ b ∈ key, b < 256) :
    parseCapabilityUrl up (buildCapabilityUrl docId key) = .ok (docId, key) := by
  have hkeyne : key ≠ [] := by
    intro h
    rw [h] at hk
    simp at hk
  have hnhk : '#' ∉ to_hex key := to_hex_no_hash key hkb
  have hnhd : '#' ∉ docId.data := by
    intro h
    have := hdhex '#' h
    simp [isHexCharCI] at this
  have hdata : (buildCapabilityUrl docId key).data =
      noslockScheme ++ (docId.data ++ '#' :: to_hex key) := rfl
  have hmem : '#' ∈ (buildCapabilityUrl docId key).data := by
    rw [hdata]
    exact List.mem_append.mpr (Or.inr (List.mem_append.mpr (Or.inr (List.mem_cons_self _ _))))
  have hdrop : (buildCapabilityUrl docId key).data.drop 10 = docId.data ++ '#' :: to_hex key := by
    rw [hdata, show (10 : Nat) = noslockScheme.length from rfl, List.drop_left]
  have hsplit : splitHash ((buildCapabilityUrl docId key).data.drop 10) =
      [docId.data, to_hex key] := by
    rw [hdrop, splitHash_append_hash _ _ hnhd, splitHash_no_hash _ hnhk]
  have hkp : noslockKeyPart (buildCapabilityUrl docId key) = to_hex key := by
    unfold noslockKeyPart
    rw [hsplit]
    rfl
  have hdp : noslockDocPart (buildCapabilityUrl docId key) = docId.data := by
    unfold noslockDocPart
    rw [hsplit]
    rfl
  unfold parseCapabilityUrl
  rw [if_neg (not_not_intro hmem)]
  rw [if_pos (show startsWithNoslock (buildCapabilityUrl docId key).data = true from rfl)]
  rw [hkp, hdp]
  rw [if_neg (by rw [to_hex_length, hk]; omega)]
  rw [if_neg (not_not_intro (hexRegexPlus_to_hex key hkeyne hkb))]
  rw [from_hex_to_hex key hkb]

/-- C4 witness: the concrete scenario
`parseCapabilityUrl ("noslock://" ++ 64 × 'a' ++ "#" ++ 32 × "12")` yields the
64-`'a'` docId and the 32-byte key of `0x12` bytes. -/
theorem parseCapabilityUrl_buildCapabilityUrl_witness :
    (∀ c ∈ (String.mk (List.replicate 64 'a')).data, isHexCharCI c = true) ∧
    parseCapabilityUrl (fun _ => none)
      (buildCapabilityUrl (String.mk (List.replicate 64 'a')) (List.replicate 32 18)) =
      .ok (String.mk (List.replicate 64 'a'), List.replicate 32 18) :=
  ⟨by decide,
   parseCapabilityUrl_buildCapabilityUrl (fun _ => none) (String.mk (List.replicate 64 'a'))
     (List.replicate 32 18) (by decide) (by decide) (by decide)⟩

/-- C5 counterexample: the input `"noslock://d#" ++ 64 × 'a' ++ "#z"` has a
fragment after its first `#` of length 66 ≠ 64, so by the claim it should be
rejected with the invalid-key-length kind; instead `parseCapabilityUrl`
accepts it, because `split("#")[1]` keeps only the text before the second
`#`. -/
theorem parseCapabilityUrl_second_hash_counterexample :
    parseCapabilityUrl (fun _ => none)
      (String.mk (('n' :: 'o' :: 's' :: 'l' :: 'o' :: 'c' :: 'k' :: ':' :: '/' :: '/' ::
        'd' :: '#' :: []) ++ List.replicate 64 'a' ++ ['#', 'z'])) =
      .ok (String.mk ['d'], List.replicate 32 170) := rfl

/-- C5 amended: `parseCapabilityUrl` rejects (a) any input containing no `#`
with the missing-key-fragment kind, and, on inputs of the `noslock://` form
(the web form goes through the external WHATWG URL parser instead), (b) any
input whose key part — the text between the first and second `#` after the
scheme, `split("#")[1]` — has length ≠ 64 with the invalid-key-length kind,
and (c) any input whose 64-character key part contains a non-hex character
with the invalid-key-format kind — three mutually distinct error kinds,
checked in that order. -/
theorem parseCapabilityUrl_validation (up : String → Option (String × String)) (url : String) :
    (('#' ∉ url.data → parseCapabilityUrl up url = .error .missingKeyFragment) ∧
     ('#' ∈ url.data → startsWithNoslock url.data = true →
       ((noslockKeyPart url).length ≠ 64 →
         parseCapabilityUrl up url = .error .invalidKeyLength) ∧
       ((noslockKeyPart url).length = 64 →
         (¬ ∀ c ∈ noslockKeyPart url, isHexCharCI c = true) →
         parseCapabilityUrl up url = .error .invalidKeyFormat))) ∧
    (UrlError.missingKeyFragment ≠ UrlError.invalidKeyLength ∧
     UrlError.missingKeyFragment ≠ UrlError.invalidKeyFormat ∧
     UrlError.invalidKeyLength ≠ UrlError.invalidKeyFormat) := by
  refine ⟨⟨?_, ?_⟩, by decide, by decide, by decide⟩
  · intro hno
    unfold parseCapabilityUrl
    rw [if_pos hno]
  · intro hmem hstart
    constructor
    · intro hlen
      unfold parseCapabilityUrl
      rw [if_neg (not_not_intro hmem), if_pos hstart, if_pos hlen]
    · intro hlen hbad
      have hreg : hexRegexPlus (noslockKeyPart url) = false := by
        rcases not_forall.mp hbad with ⟨c, hc⟩
        rcases Classical.not_imp.mp hc with ⟨hcmem, hcbad⟩
        unfold hexRegexPlus
        rw [Bool.and_eq_false_iff]
        right
        rw [List.all_eq_false]
        exact ⟨c, hcmem, hcbad⟩
      unfold parseCapabilityUrl
      rw [if_neg (not_not_intro hmem), if_pos hstart,
        if_neg (show ¬ (noslockKeyPart url).length ≠ 64 from not_not_intro hlen)]
      rw [if_pos (show ¬ hexRegexPlus (noslockKeyPart url) = true by rw [hreg]; simp)]

/-- C5 witness: the three rejection kinds at concrete inputs: no `#`; a
noslock URL with a 1-character key part; a noslock URL whose 64-character
key part contains `'z'`. -/
theorem parseCapabilityUrl_validation_witness :
    parseCapabilityUrl (fun _ => none) (String.mk ['n', 'o']) =
      .error .missingKeyFragment ∧
    parseCapabilityUrl (fun _ => none)
      (String.mk (('n' :: 'o' :: 's' :: 'l' :: 'o' :: 'c' :: 'k' :: ':' :: '/' :: '/' ::
        'd' :: '#' :: []) ++ ['a'])) = .error .invalidKeyLength ∧
    parseCapabilityUrl (fun _ => none)
      (String.mk (('n' :: 'o' :: 's' :: 'l' :: 'o' :: 'c' :: 'k' :: ':' :: '/' :: '/' ::
        'd' :: '#' :: []) ++ List.replicate 64 'z')) = .error .invalidKeyFormat :=
  ⟨((parseCapabilityUrl_validation (fun _ => none) _).1.1 (by decide)),
   ((parseCapabilityUrl_validation (fun _ => none) _).1.2 (by decide) (by decide)).1 (by decide),
   ((parseCapabilityUrl_validation (fun _ => none) _).1.2 (by decide) (by decide)).2
     (by decide) (by decide)⟩

/-- C6 counterexample: a 0-byte ciphertext (shorter than 16 bytes) makes
`decryptPaste` fail with `DecryptionError` — the same single kind produced
by an authentication failure, here a 16-zero-byte ciphertext whose tag does
not verify under the zero key — so no distinct `InvalidCiphertextLength`
kind exists in the code. -/
theorem decryptPaste_single_error_kind :
    decryptPaste [] (List.replicate 24 0) (List.replicate 32 0) =
      .error .decryptionError ∧
    decryptPaste (List.replicate 16 0) (List.replicate 24 0) (List.replicate 32 0) =
      .error .decryptionError := by
  set_option maxRecDepth 8000 in exact ⟨rfl, rfl⟩

/-- C6 amended: for every ciphertext shorter than 16 bytes, `decryptPaste`
fails without attempting decryption (the libsodium wrapper rejects the
input before any tag check or decryption), but the surfaced kind is the
single `DecryptionError` used for every failure, not a distinct
`InvalidCiphertextLength` kind. -/
theorem decryptPaste_short_ciphertext (ct nonce key : List Nat) (h : ct.length < 16) :
    decryptPaste ct nonce key = .error .decryptionError := by
  unfold decryptPaste xchachaDecrypt
  rw [if_pos h]

/-- C6 witness: the empty ciphertext is shorter than 16 bytes and is
rejected with the single `DecryptionError` kind. -/
theorem decryptPaste_short_ciphertext_witness :
    ([] : List Nat).length < 16 ∧
    decryptPaste [] (List.replicate 24 1) (List.replicate 32 1) =
      .error .decryptionError :=
  ⟨by decide,
   decryptPaste_short_ciphertext [] (List.replicate 24 1) (List.replicate 32 1) (by decide)⟩

/-- C7: `encryptPaste` has no size ceiling: a plaintext of 131073 ASCII
characters (one byte past 128 KB) is encrypted without any error — there is
no `PayloadTooLarge` kind anywhere in the code — producing a ciphertext of
131089 bytes. -/
theorem encryptPaste_accepts_oversize :
    (encryptPaste (List.replicate 32 0) (List.replicate 24 0) (List.replicate 32 0)
      (String.mk (List.replicate 131073 'a'))).ciphertext.length = 131089 := by
  show (xchachaEncrypt (utf8Encode (String.mk (List.replicate 131073 'a')).data)
    (List.replicate 32 0) (List.replicate 24 0)).length = 131089
  rw [xchachaEncrypt_length,
    show (String.mk (List.replicate 131073 'a')).data = List.replicate 131073 'a' from rfl,
    utf8Encode_replicate_a_length]

/-- C8: for every plaintext string `P` and whatever key and nonce bytes the
generator supplies, the ciphertext returned by `encryptPaste` has length
equal to the UTF-8 byte length of `P` plus exactly 16 (the Poly1305 tag). -/
theorem encryptPaste_ciphertext_length (rndKey rndNonce rndDocId : List Nat) (P : String) :
    (encryptPaste rndKey rndNonce rndDocId P).ciphertext.length =
      (utf8Encode P.data).length + 16 :=
  xchachaEncrypt_length _ _ _

/-- C9: on every exit path of `decryptPaste` — normal return, authentication
failure, and any other error — the one intermediate buffer the function
allocates that holds decrypted plaintext is overwritten with zeros by the
`finally` block before the call completes (the function allocates no
intermediate buffer holding the key; the key is the caller's own argument). -/
theorem decryptPaste_wipes_plaintext (ct nonce key : List Nat) :
    ((decryptPasteTraced ct nonce key).plaintextBuf.getD []).all (fun b => b == 0) = true := by
  unfold decryptPasteTraced
  cases xchachaDecrypt ct key nonce with
  | error e => rfl
  | ok pt =>
    show (List.replicate pt.length 0).all (fun b => b == 0) = true
    rw [List.all_eq_true]
    intro b hb
    rw [List.eq_of_mem_replicate hb]
    rfl

/-- C10: `fetchPaste` consults the relay pool only for docIds that are
exactly 64 case-insensitive hex characters: for every other docId it throws
its format error without any relay operation (the result is the same for
every relay), and for conforming docIds the result is exactly the relay
lookup followed by the content decode. -/
theorem fetchPaste_docId_guard (docId : String) :
    (docIdTest docId = true ↔
      (docId.length = 64 ∧ ∀ c ∈ docId.data, isHexCharCI c = true)) ∧
    (¬ (docId.length = 64 ∧ ∀ c ∈ docId.data, isHexCharCI c = true) →
      ∀ relay, fetchPaste relay docId = .error .invalidDocId) ∧
    ((docId.length = 64 ∧ ∀ c ∈ docId.data, isHexCharCI c = true) →
      ∀ relay, fetchPaste relay docId =
        match relay docId with
        | none => .error .notFound
        | some content => decodeEventContent content) := by
  have hiff : docIdTest docId = true ↔
      (docId.length = 64 ∧ ∀ c ∈ docId.data, isHexCharCI c = true) := by
    unfold docIdTest
    rw [Bool.and_eq_true, beq_iff_eq, List.all_eq_true]
  refine ⟨hiff, ?_, ?_⟩
  · intro hnot relay
    unfold fetchPaste
    rw [if_pos (fun h => hnot (hiff.mp h))]
  · intro hyes relay
    unfold fetchPaste
    rw [if_neg (not_not_intro (hiff.mpr hyes))]

/-- C10 witness: the two-character docId `"zz"` is rejected without
consulting the relay, while the 64-`'a'` docId reaches the relay lookup
(here an empty relay, so `NotFoundError`). -/
theorem fetchPaste_docId_guard_witness :
    fetchPaste (fun _ => none) (String.mk ['z', 'z']) = .error .invalidDocId ∧
    fetchPaste (fun _ => none) (String.mk (List.replicate 64 'a')) = .error .notFound := by
  constructor
  · exact (fetchPaste_docId_guard (String.mk ['z', 'z'])).2.1 (by decide) (fun _ => none)
  · rw [(fetchPaste_docId_guard (String.mk (List.replicate 64 'a'))).2.2 (by decide)
      (fun _ => none)]

end Noslock
